import Mathlib

/-!
# Verification of the alt-text / structured-report backend

Shallow embedding of the pure logic of the repository
`From-Alt-text-to-Real-Context-with-AI` (Python/Flask), faithful to the
source files:

* `app/services/med_service.py`   (`parse_medical_report`)
* `app/services/seo_service.py`   (`parse_seo_content`, `parse_social_content`)
* `app/services/text_service.py`  (`clean_text`, `enhance_alt_text`,
  the inline section loop of `analyze_medical_image`)
* `app/services/image_service.py` (`ImageProcessor.detect_objects`,
  `ImageProcessor.generate_alt_text_general`)
* `app/utils/file_utils.py`       (`allowed_file`)
* `app/routes/main_routes.py`     (temporary-file lifecycle of the
  `social_media` and `text_to_speech` handlers,
  `ALLOWED_MEDICAL_EXTENSIONS`)

Python strings are modelled as `List Char` (a Python `str` is a sequence
of code points); whitespace is modelled as `Char.isWhitespace`
(space/tab/CR/LF, the whitespace occurring in this code base's data).
Calls to external ML models are modelled as oracle function parameters;
fallible external calls as `Except`/`Bool` parameters.  Python `float`
scores are modelled as `ℚ`.
-/

/-- Model of a Python `str`: a list of code points. -/
abbrev PyStr := List Char

/-! ## Basic Python string primitives on `PyStr` -/

/-- `l.startswith p` for Python strings: `p` is an initial segment of `l`. -/
def pyStartsWith : PyStr → PyStr → Bool
  | _, [] => true
  | [], _ :: _ => false
  | a :: l, b :: p => a = b && pyStartsWith l p

/-- Python's `kw in line`: `kw` occurs as a contiguous substring of `l`. -/
def pyContains (l kw : PyStr) : Bool :=
  (List.range (l.length + 1)).any fun i => pyStartsWith (l.drop i) kw

/-- Python's `line.strip()`: remove leading and trailing whitespace. -/
def pyStrip (l : PyStr) : PyStr :=
  ((l.dropWhile Char.isWhitespace).reverse.dropWhile Char.isWhitespace).reverse

/-- Python's `text.split('\n')`: split on newline, keeping empty pieces. -/
def splitNL : PyStr → List PyStr
  | [] => [[]]
  | c :: rest =>
    if c = '\n' then [] :: splitNL rest
    else
      match splitNL rest with
      | [] => [[c]]
      | w :: ws => (c :: w) :: ws

/-- Python's `'\n'.join(pieces)`. -/
def joinNL : List PyStr → PyStr
  | [] => []
  | [w] => w
  | w :: ws => w ++ '\n' :: joinNL ws

/-- Python's `' '.join(pieces)`. -/
def joinSp : List PyStr → PyStr
  | [] => []
  | [w] => w
  | w :: ws => w ++ ' ' :: joinSp ws

/-- ASCII lowering of one character, the behaviour of Python's
`str.lower()` on the ASCII text this code base matches against. -/
def asciiLowerChar (c : Char) : Char :=
  if 'A' ≤ c ∧ c ≤ 'Z' then Char.ofNat (c.toNat + 32) else c

/-- Python's `line.lower()` (ASCII fragment). -/
def asciiLower (l : PyStr) : PyStr := l.map asciiLowerChar

/-! ## `med_service.parse_medical_report` -/

/-- The four section keys of `parse_medical_report`. -/
inductive MedKey
  | technical_assessment
  | anatomical_observations
  | notable_findings
  | recommendations
deriving DecidableEq, Repr

/-- The `sections` dict of `parse_medical_report`. -/
structure MedSections where
  technical_assessment : PyStr
  anatomical_observations : PyStr
  notable_findings : PyStr
  recommendations : PyStr
deriving DecidableEq, Repr

/-- The initial all-empty `sections` dict. -/
def MedSections.empty : MedSections := ⟨[], [], [], []⟩

/-- Scan state of `parse_medical_report`: `current_section`,
`current_content`, and the `sections` dict. -/
structure MedState where
  current : Option MedKey
  content : List PyStr
  sections : MedSections
deriving DecidableEq, Repr

/-- One iteration of the `for line in text.split('\n')` loop of
`parse_medical_report` (med_service.py lines 75–98). -/
def medStep (st : MedState) (rawLine : PyStr) : MedState :=
  let line := pyStrip rawLine
  if line = [] then st
  else if pyContains line "Technical Assessment".data then
    { st with current := some .technical_assessment }
  else if pyContains line "Anatomical Observations".data then
    { current := some .anatomical_observations
      content := []
      sections :=
        if st.current = some .technical_assessment then
          { st.sections with technical_assessment := joinNL st.content }
        else st.sections }
  else if pyContains line "Notable Findings".data then
    { current := some .notable_findings
      content := []
      sections :=
        if st.current = some .anatomical_observations then
          { st.sections with anatomical_observations := joinNL st.content }
        else st.sections }
  else if pyContains line "Recommendations".data then
    { current := some .recommendations
      content := []
      sections :=
        if st.current = some .notable_findings then
          { st.sections with notable_findings := joinNL st.content }
        else st.sections }
  else if st.current.isSome &&
      !(pyStartsWith line "1.".data || pyStartsWith line "2.".data ||
        pyStartsWith line "3.".data || pyStartsWith line "4.".data) then
    { st with content := st.content ++ [line] }
  else st

/-- `parse_medical_report` (med_service.py lines 63–104): scan the lines,
then flush the final accumulator only when the last active section is
`recommendations`. -/
def parse_medical_report (text : PyStr) : MedSections :=
  let fin := (splitNL text).foldl medStep ⟨none, [], MedSections.empty⟩
  if fin.current = some .recommendations then
    { fin.sections with recommendations := joinNL fin.content }
  else fin.sections

/-! ## `seo_service.parse_seo_content` -/

/-- Python's `s.split(sep)` for a one-character separator, keeping empty
pieces. -/
def splitOnChar (sep : Char) : PyStr → List PyStr
  | [] => [[]]
  | c :: rest =>
    if c = sep then [] :: splitOnChar sep rest
    else
      match splitOnChar sep rest with
      | [] => [[c]]
      | w :: ws => (c :: w) :: ws

/-- The `sections` dict of `parse_seo_content`. -/
structure SeoSections where
  meta_title : PyStr
  meta_description : PyStr
  alternative_titles : List PyStr
  keywords : List PyStr
  product_description : PyStr
deriving DecidableEq, Repr

/-- The initial `sections` dict of `parse_seo_content`. -/
def SeoSections.empty : SeoSections := ⟨[], [], [], [], []⟩

/-- The five section keys of `parse_seo_content`. -/
inductive SeoKey
  | meta_title | meta_description | alternative_titles | keywords
  | product_description
deriving DecidableEq, Repr

/-- Scan state of `parse_seo_content`. -/
structure SeoState where
  current : Option SeoKey
  content : List PyStr
  sections : SeoSections
deriving DecidableEq, Repr

/-- One iteration of the loop of `parse_seo_content` (seo_service.py
lines 83–111).  Heading detection lowercases the stripped line first. -/
def seoStep (st : SeoState) (rawLine : PyStr) : SeoState :=
  let line := pyStrip rawLine
  let low := asciiLower line
  if line = [] then st
  else if pyContains low "meta title".data || pyContains low "title:".data then
    { st with current := some .meta_title }
  else if pyContains low "meta description".data ||
      pyContains low "description:".data then
    { current := some .meta_description
      content := []
      sections :=
        if st.current = some .meta_title then
          { st.sections with meta_title := pyStrip (joinSp st.content) }
        else st.sections }
  else if pyContains low "alternative titles".data ||
      pyContains low "a/b testing".data then
    { current := some .alternative_titles
      content := []
      sections :=
        if st.current = some .meta_description then
          { st.sections with meta_description := pyStrip (joinSp st.content) }
        else st.sections }
  else if pyContains low "keywords".data then
    { current := some .keywords
      content := []
      sections :=
        if st.current = some .alternative_titles then
          { st.sections with alternative_titles :=
              (st.content.map pyStrip).filter (· ≠ []) }
        else st.sections }
  else if pyContains low "product description".data then
    { current := some .product_description
      content := []
      sections :=
        if st.current = some .keywords then
          { st.sections with keywords :=
              (splitOnChar ',' (joinSp st.content)).map pyStrip }
        else st.sections }
  else if st.current.isSome then
    { st with content := st.content ++ [line] }
  else st

/-- `parse_seo_content` (seo_service.py lines 70–117): scan the lines, then
flush the final accumulator only when the last active section is
`product_description`. -/
def parse_seo_content (text : PyStr) : SeoSections :=
  let fin := (splitNL text).foldl seoStep ⟨none, [], SeoSections.empty⟩
  if fin.current = some .product_description then
    { fin.sections with product_description := pyStrip (joinSp fin.content) }
  else fin.sections

/-! ## `seo_service.parse_social_content` -/

/-- The `sections` dict of `parse_social_content`. -/
structure SocialSections where
  instagram_captions : List PyStr
  twitter_posts : List PyStr
  facebook_post : PyStr
  hashtags : List PyStr
deriving DecidableEq, Repr

/-- The initial `sections` dict of `parse_social_content`. -/
def SocialSections.empty : SocialSections := ⟨[], [], [], []⟩

/-- The four section keys of `parse_social_content`. -/
inductive SocialKey
  | instagram_captions | twitter_posts | facebook_post | hashtags
deriving DecidableEq, Repr

/-- Scan state of `parse_social_content`. -/
structure SocialState where
  current : Option SocialKey
  content : List PyStr
  sections : SocialSections
deriving DecidableEq, Repr

/-- One iteration of the loop of `parse_social_content` (seo_service.py
lines 131–155).  Note the content branch drops lines whose lowercase form
starts with `'1.'`–`'5.'`. -/
def socialStep (st : SocialState) (rawLine : PyStr) : SocialState :=
  let line := pyStrip rawLine
  let low := asciiLower line
  if line = [] then st
  else if pyContains low "instagram".data then
    { st with current := some .instagram_captions, content := [] }
  else if pyContains low "twitter".data || pyContains low "x post".data then
    { current := some .twitter_posts
      content := []
      sections :=
        if st.current = some .instagram_captions then
          { st.sections with instagram_captions :=
              (st.content.map pyStrip).filter (· ≠ []) }
        else st.sections }
  else if pyContains low "facebook".data then
    { current := some .facebook_post
      content := []
      sections :=
        if st.current = some .twitter_posts then
          { st.sections with twitter_posts :=
              (st.content.map pyStrip).filter (· ≠ []) }
        else st.sections }
  else if pyContains low "hashtag".data then
    { current := some .hashtags
      content := []
      sections :=
        if st.current = some .facebook_post then
          { st.sections with facebook_post := pyStrip (joinSp st.content) }
        else st.sections }
  else if st.current.isSome &&
      !(pyStartsWith low "1.".data || pyStartsWith low "2.".data ||
        pyStartsWith low "3.".data || pyStartsWith low "4.".data ||
        pyStartsWith low "5.".data) then
    { st with content := st.content ++ [line] }
  else st

/-- `parse_social_content` (seo_service.py lines 119–161): scan the lines,
then flush the final accumulator only when the last active section is
`hashtags`. -/
def parse_social_content (text : PyStr) : SocialSections :=
  let fin := (splitNL text).foldl socialStep ⟨none, [], SocialSections.empty⟩
  if fin.current = some .hashtags then
    { fin.sections with hashtags :=
        ((splitOnChar '#' (joinSp fin.content)).map pyStrip).filter (· ≠ []) }
  else fin.sections

/-! ## The inline section loop of `text_service.analyze_medical_image` -/

/-- The `sections` dict of the loop in `analyze_medical_image`
(text_service.py lines 219–234). -/
structure TsSections where
  key_findings : PyStr
  potential_observations : PyStr
  recommendations : PyStr
deriving DecidableEq, Repr

/-- The initial `sections` dict of `analyze_medical_image`. -/
def TsSections.empty : TsSections := ⟨[], [], []⟩

/-- The three section keys of the loop in `analyze_medical_image`. -/
inductive TsKey
  | key_findings | potential_observations | recommendations
deriving DecidableEq, Repr

/-- The configured heading keyword of each key, exactly as the loop in
`analyze_medical_image` tests it with `in line`. -/
def tsKeyword : TsKey → PyStr
  | .key_findings => "1. Key Findings:".data
  | .potential_observations => "2. Potential Observations:".data
  | .recommendations => "3. Recommendations:".data

/-- Read one section value back out of the dict. -/
def tsGet : TsKey → TsSections → PyStr
  | .key_findings, s => s.key_findings
  | .potential_observations, s => s.potential_observations
  | .recommendations, s => s.recommendations

/-- Scan state of the loop in `analyze_medical_image`: there is no
separate accumulator, lines are appended to the dict directly. -/
structure TsState where
  current : Option TsKey
  sections : TsSections
deriving DecidableEq, Repr

/-- Append one stripped line (plus `'\n'`) to the value of a key, the
`sections[current_section] += line.strip() + '\n'` statement. -/
def tsAppend (k : TsKey) (s : TsSections) (l : PyStr) : TsSections :=
  match k with
  | .key_findings => { s with key_findings := s.key_findings ++ l ++ ['\n'] }
  | .potential_observations =>
      { s with potential_observations := s.potential_observations ++ l ++ ['\n'] }
  | .recommendations =>
      { s with recommendations := s.recommendations ++ l ++ ['\n'] }

/-- One iteration of the loop of `analyze_medical_image` (text_service.py
lines 226–234).  Headings are matched on the raw (unstripped) line. -/
def tsStep (st : TsState) (line : PyStr) : TsState :=
  if pyContains line (tsKeyword .key_findings) then
    { st with current := some .key_findings }
  else if pyContains line (tsKeyword .potential_observations) then
    { st with current := some .potential_observations }
  else if pyContains line (tsKeyword .recommendations) then
    { st with current := some .recommendations }
  else
    match st.current with
    | some k =>
        if pyStrip line = [] then st
        else { st with sections := tsAppend k st.sections (pyStrip line) }
    | none => st

/-- The section-parsing loop of `analyze_medical_image` (text_service.py
lines 219–234), extracted as a function of the generated text. -/
def ts_parse_sections (analysis : PyStr) : TsSections :=
  ((splitNL analysis).foldl tsStep ⟨none, TsSections.empty⟩).sections

/-! ## `text_service.clean_text` -/

/-- Word scanner backing Python's `text.split()`: `acc` is the reversed
current word. -/
def pyWordsAux : PyStr → List Char → List PyStr
  | [], acc => if acc.isEmpty then [] else [acc.reverse]
  | c :: rest, acc =>
    if c.isWhitespace then
      if acc.isEmpty then pyWordsAux rest []
      else acc.reverse :: pyWordsAux rest []
    else pyWordsAux rest (c :: acc)

/-- Python's `text.split()`: maximal runs of non-whitespace characters. -/
def pyWords (l : PyStr) : List PyStr := pyWordsAux l []

/-- Run collapser backing `re.sub(r'(.)\1+', r'\1', s)`: drop a character
equal to the previously kept one, except that `.` does not match a
newline so newline runs survive. -/
def pyCollapseAux (prev : Char) : PyStr → PyStr
  | [] => []
  | c :: rest =>
    if c = prev ∧ c ≠ '\n' then pyCollapseAux prev rest
    else c :: pyCollapseAux c rest

/-- `re.sub(r'(.)\1+', r'\1', s)`: collapse each run of a repeated
(non-newline) character to a single occurrence. -/
def pyCollapse : PyStr → PyStr
  | [] => []
  | c :: rest => c :: pyCollapseAux c rest

/-- Tail of consecutive-duplicate removal: drop elements equal to the
previously kept one. -/
def dedupConsecAux (prev : PyStr) : List PyStr → List PyStr
  | [] => []
  | w :: rest =>
    if w = prev then dedupConsecAux prev rest
    else w :: dedupConsecAux w rest

/-- The `[next(group) for key, group in groupby(words)]` comprehension:
keep the first element of each run of equal consecutive words. -/
def dedupConsec : List PyStr → List PyStr
  | [] => []
  | w :: rest => w :: dedupConsecAux w rest

/-- `clean_text` (text_service.py lines 72–91) with its default options:
falsy (empty) input is returned as is; otherwise split into words, remove
consecutive duplicate words, rejoin with single spaces, and collapse
repeated characters. -/
def clean_text (text : PyStr) : PyStr :=
  if text = [] then text
  else pyCollapse (joinSp (dedupConsec (pyWords text)))

/-! ## `text_service.enhance_alt_text` -/

/-- Outcome of `enhance_alt_text`: the returned `enhanced_alt_text`
payload together with the number of Gemini expansion requests issued. -/
structure EnhanceResult where
  enhanced_alt_text : PyStr
  expansionCalls : ℕ
deriving DecidableEq, Repr

/-- The fixed filler clause appended when the expansion is still short
(text_service.py line 318). -/
def fillerClause : PyStr :=
  " with various details and elements visible in the scene".data

/-- `enhance_alt_text` (text_service.py lines 279–326).  The Gemini step
`model.generate_content(prompt).text.strip()` is modelled by the fallible
oracle `expand`: an `Except.error` is the raised exception, which the
source's `except` handler (lines 323–326) turns into a success response
carrying the original `alt_text` as fallback.  `expansionCalls` counts
expansion attempts: one attempt is issued on the short-input path whether
or not it succeeds, and none afterwards. -/
def enhance_alt_text (expand : PyStr → Except PyStr PyStr) (alt_text : PyStr)
    (min_words : ℕ := 6) : EnhanceResult :=
  let word_count := (pyWords alt_text).length
  if min_words ≤ word_count then ⟨alt_text, 0⟩
  else
    match expand alt_text with
    | .ok enhanced_text =>
      let enhanced_text :=
        if (pyWords enhanced_text).length < min_words then
          enhanced_text ++ fillerClause
        else enhanced_text
      ⟨enhanced_text, 1⟩
    | .error _ => ⟨alt_text, 1⟩

/-! ## `file_utils.allowed_file` and the extension sets -/

/-- `ALLOWED_EXTENSIONS` / the `DEFAULT_EXTENSIONS` set inside
`allowed_file` (config.py line 9, file_utils.py line 21). -/
def DEFAULT_EXTENSIONS : List PyStr :=
  ["png".data, "jpg".data, "jpeg".data, "gif".data]

/-- `ALLOWED_MEDICAL_EXTENSIONS` (main_routes.py line 26). -/
def ALLOWED_MEDICAL_EXTENSIONS : List PyStr :=
  ["png".data, "jpg".data, "jpeg".data, "gif".data, "tiff".data, "dcm".data]

/-- `allowed_file` (file_utils.py lines 4–38): empty name and extensionless
name are rejected; otherwise the lowercased text after the last dot
(`filename.rsplit('.', 1)[1].lower()`) must belong to the allow-set. -/
def allowed_file (filename : PyStr)
    (allowed_extensions : Option (List PyStr) := none) : Bool :=
  if filename = [] then false
  else
    let extensions := allowed_extensions.getD DEFAULT_EXTENSIONS
    if !filename.contains '.' then false
    else
      let extension := asciiLower (filename.reverse.takeWhile (· ≠ '.')).reverse
      extensions.contains extension

/-- The file-type validation performed by the
`/api/analyze-medical-image` route (main_routes.py line 321): it calls
`allowed_file(file.filename)` with no second argument, so the default
extension set is used. -/
def medical_route_file_check (filename : PyStr) : Bool :=
  allowed_file filename none

/-! ## `image_service.ImageProcessor.detect_objects` -/

/-- Python's `round` (banker's rounding, half to even) on a rational. -/
def pyRoundHalfEven (q : ℚ) : ℤ :=
  let f := ⌊q⌋
  if q - f < 1/2 then f
  else if 1/2 < q - f then f + 1
  else if f % 2 = 0 then f else f + 1

/-- Python's `round(x, 2)`. -/
def round2 (q : ℚ) : ℚ := (pyRoundHalfEven (q * 100) : ℚ) / 100

/-- One detected object as built by `detect_objects`:
`{'name': ..., 'confidence': ...}`. -/
structure DetObj where
  name : PyStr
  confidence : ℚ
deriving DecidableEq, Repr

/-- One step of the duplicate-removal loop of `detect_objects`
(image_service.py lines 164–168): insertion-ordered dict update keeping
the strictly higher confidence. -/
def updUnique (acc : List DetObj) (o : DetObj) : List DetObj :=
  if acc.any (fun a => a.name == o.name) then
    acc.map fun a =>
      if a.name = o.name ∧ a.confidence < o.confidence then o else a
  else acc ++ [o]

/-- `detect_objects` (image_service.py lines 120–174).  The DETR inference
and post-processing are modelled by the oracle list `dets` of
(score, label-name) pairs with rational scores; the extraction loop keeps
scores strictly above `0.7`, stores `round(confidence * 100, 2)`, and
deduplicates by name.  An unavailable detector (and the `except` path)
yields `[]`. -/
def detect_objects (detr_available : Bool) (dets : List (ℚ × PyStr)) :
    List DetObj :=
  if !detr_available then []
  else
    let objects := dets.filterMap fun sl =>
      if (7 : ℚ)/10 < sl.1 then some ⟨sl.2, round2 (sl.1 * 100)⟩ else none
    objects.foldl updUnique []

/-! ## `image_service.ImageProcessor.generate_alt_text_general` -/

/-- The result dict of `generate_alt_text_general`, which holds exactly
the keys `description`, `objects`, `dominant_colors`, `quality_issues`. -/
structure GenResult where
  description : PyStr
  objects : List DetObj
  dominant_colors : List PyStr
  quality_issues : List PyStr
deriving DecidableEq, Repr

/-- The pre-populated default result (image_service.py lines 217–222). -/
def genDefault : GenResult :=
  ⟨"Image description unavailable due to model loading issues.".data,
    [], [], []⟩

/-- `generate_alt_text_general` (image_service.py lines 208–284).  The
image type and every external step are oracle parameters; a failing step
is an `Except.error`, which the source's `try/except` turns into an early
return of the partially updated `result` dict.  The `formatted_objects`
loop is the identity here because every element produced by
`detect_objects` is a dict with a `'name'` key. -/
def generate_alt_text_general {Img : Type}
    (blip_available detr_available : Bool)
    (preprocess : Except PyStr Img)
    (validate_quality : Img → Except PyStr (List PyStr))
    (blipDescribe : Img → Except PyStr PyStr)
    (detect : Img → List DetObj)
    (kmeansColors : Img → Except PyStr (List PyStr)) : GenResult :=
  match preprocess with
  | .error _ => genDefault
  | .ok img =>
    match validate_quality img with
    | .error _ => genDefault
    | .ok issues =>
      let r1 := { genDefault with quality_issues := issues }
      let described :=
        if blip_available then
          match blipDescribe img with
          | .error _ => none
          | .ok d => some { r1 with description := d }
        else some r1
      match described with
      | none => r1
      | some r2 =>
        let r3 :=
          if detr_available then { r2 with objects := detect img } else r2
        match kmeansColors img with
        | .error _ => r3
        | .ok colors => { r3 with dominant_colors := colors }

/-! ## Temporary-file lifecycle of the route handlers -/

/-- Abstract HTTP outcome of a handler. -/
inductive RouteOutcome
  | ok | clientError | serverError
deriving DecidableEq, Repr

/-- `os.remove` guarded by `os.path.exists`: drop the path from the
filesystem (a no-op when absent). -/
def fsRemove (fs : List PyStr) (p : PyStr) : List PyStr :=
  fs.filter (· ≠ p)

/-- The POST branch of the `social_media` handler (main_routes.py lines
36–114), restricted to its temporary-file effect.  `saveOk` models
whether `file.save` succeeds and `processOk` whether the model/Gemini
pipeline succeeds; the `finally` block removes the saved file on every
exit path.  The filesystem is the list of existing paths. -/
def social_media_post (hasImage : Bool) (filename filepath : PyStr)
    (saveOk processOk : Bool) (fs : List PyStr) :
    RouteOutcome × List PyStr :=
  if !hasImage then (.clientError, fs)
  else if filename = [] then (.clientError, fs)
  else if !allowed_file filename none then (.clientError, fs)
  else
    let fs1 := if saveOk then filepath :: fs else fs
    let outcome : RouteOutcome :=
      if !saveOk then .serverError
      else if processOk then .ok else .serverError
    (outcome, fsRemove fs1 filepath)

/-- The `text_to_speech` handler (main_routes.py lines 276–296),
restricted to its temporary-file effect.  `NamedTemporaryFile(delete=False)`
creates `tmpName`; there is no `finally` block and no `os.remove`, so the
file stays on both the success path and the `except` path.  `ttsOk`
models whether `gTTS(...).save` succeeds. -/
def text_to_speech (text : PyStr) (ttsOk : Bool) (tmpName : PyStr)
    (fs : List PyStr) : RouteOutcome × List PyStr :=
  if text = [] then (.clientError, fs)
  else
    let fs1 := tmpName :: fs
    if ttsOk then (.ok, fs1) else (.serverError, fs1)

/-! ## Auxiliary predicates used by the theorems -/

/-- The four heading keywords of `parse_medical_report`, in the priority
order of its `if`/`elif` chain. -/
def medKeywords : List PyStr :=
  ["Technical Assessment".data, "Anatomical Observations".data,
    "Notable Findings".data, "Recommendations".data]

/-- A plain body line for `parse_medical_report`: already stripped,
non-blank, free of `'\n'`, containing no heading keyword, and not
starting with a `'1.'`–`'4.'` marker. -/
def medBodyLine (l : PyStr) : Bool :=
  decide (pyStrip l = l) && !l.isEmpty && !l.contains '\n' &&
    medKeywords.all (fun kw => !pyContains l kw) &&
    !(pyStartsWith l "1.".data || pyStartsWith l "2.".data ||
      pyStartsWith l "3.".data || pyStartsWith l "4.".data)

/-- Well-formed word list: every word is non-empty and free of
whitespace, the shape produced by Python's `str.split()`. -/
def GoodWords (ws : List PyStr) : Prop :=
  ∀ w ∈ ws, w ≠ [] ∧ ∀ c ∈ w, ¬c.isWhitespace

/-! ## Lemmas: `str.split()` words, joins -/

theorem pyWordsAux_append_space (ys : PyStr) :
    ∀ (xs : PyStr) (acc : List Char),
      pyWordsAux (xs ++ ' ' :: ys) acc = pyWordsAux xs acc ++ pyWordsAux ys [] := by
  intro xs
  induction xs with
  | nil =>
    intro acc
    simp only [List.nil_append, pyWordsAux]
    by_cases h : acc.isEmpty <;>
      simp [pyWordsAux, h, show (' ').isWhitespace = true from by decide]
  | cons c rest ih =>
    intro acc
    simp only [List.cons_append, pyWordsAux]
    by_cases hc : c.isWhitespace
    · by_cases h : acc.isEmpty <;> simp [hc, h, ih]
    · simp [hc, ih]

theorem pyWordsAux_no_ws :
    ∀ (w : PyStr) (acc : List Char), (∀ c ∈ w, ¬c.isWhitespace) →
      pyWordsAux w acc =
        if acc.reverse ++ w = [] then [] else [acc.reverse ++ w] := by
  intro w
  induction w with
  | nil =>
    intro acc _
    simp only [pyWordsAux, List.append_nil]
    by_cases h : acc.isEmpty <;>
      simp_all [List.isEmpty_iff]
  | cons c rest ih =>
    intro acc hw
    have hc : ¬c.isWhitespace := hw c (by simp)
    simp only [pyWordsAux, hc, if_false]
    rw [ih (c :: acc) (fun d hd => hw d (by simp [hd]))]
    simp

theorem pyWordsAux_good :
    ∀ (l : PyStr) (acc : List Char), (∀ c ∈ acc, ¬c.isWhitespace) →
      GoodWords (pyWordsAux l acc) := by
  intro l
  induction l with
  | nil =>
    intro acc hacc
    simp only [pyWordsAux]
    by_cases h : acc.isEmpty
    · simp [h, GoodWords]
    · intro w hw
      simp only [if_neg h, List.mem_singleton] at hw
      subst hw
      refine ⟨by simpa [List.isEmpty_iff] using h, fun c hc => hacc c ?_⟩
      simpa using hc
  | cons c rest ih =>
    intro acc hacc
    simp only [pyWordsAux]
    by_cases hc : c.isWhitespace
    · by_cases h : acc.isEmpty
      · simpa [hc, h] using ih [] (by simp)
      · simp only [hc, if_true, h, if_false]
        intro w hw
        rcases List.mem_cons.mp hw with hw | hw
        · subst hw
          refine ⟨by simpa [List.isEmpty_iff] using h, fun d hd => hacc d ?_⟩
          simpa using hd
        · exact ih [] (by simp) w hw
    · simp only [hc, if_false]
      refine ih (c :: acc) ?_
      intro d hd
      rcases List.mem_cons.mp hd with h | h
      · subst h; exact hc
      · exact hacc d h

theorem pyWords_good (l : PyStr) : GoodWords (pyWords l) :=
  pyWordsAux_good l [] (by simp)

theorem joinSp_cons_cons (w x : PyStr) (rest : List PyStr) :
    joinSp (w :: x :: rest) = w ++ ' ' :: joinSp (x :: rest) := rfl

theorem joinSp_head_no_ws (ws : List PyStr) (hws : GoodWords ws)
    (hne : ws ≠ []) :
    ∃ d t, joinSp ws = d :: t ∧ ¬d.isWhitespace := by
  match ws, hne with
  | w :: rest, _ =>
    obtain ⟨hwne, hwnws⟩ := hws w (by simp)
    match w, hwne with
    | c :: w0, _ =>
      refine ⟨c, ?_, ?_, hwnws c (by simp)⟩
      · match rest with
        | [] => exact w0
        | x :: rest' => exact w0 ++ ' ' :: joinSp (x :: rest')
      · match rest with
        | [] => rfl
        | x :: rest' => rfl

theorem joinSp_ne_nil (ws : List PyStr) (hws : GoodWords ws) (hne : ws ≠ []) :
    joinSp ws ≠ [] := by
  obtain ⟨d, t, h, _⟩ := joinSp_head_no_ws ws hws hne
  simp [h]

theorem pyWords_joinSp (ws : List PyStr) (hws : GoodWords ws) :
    pyWords (joinSp ws) = ws := by
  induction ws with
  | nil => rfl
  | cons w rest ih =>
    obtain ⟨hwne, hwnws⟩ := hws w (by simp)
    have hrest : GoodWords rest := fun x hx => hws x (by simp [hx])
    match rest with
    | [] =>
      show pyWords w = [w]
      rw [pyWords, pyWordsAux_no_ws w [] hwnws]
      simp [hwne]
    | x :: rest' =>
      rw [joinSp_cons_cons, pyWords, pyWordsAux_append_space,
        pyWordsAux_no_ws w [] hwnws]
      simp only [List.reverse_nil, List.nil_append, hwne, if_false]
      rw [show pyWordsAux (joinSp (x :: rest')) [] = pyWords (joinSp (x :: rest')) from rfl,
        ih hrest]
      simp

theorem pyWords_append_filler (e : PyStr) :
    (pyWords (e ++ fillerClause)).length = (pyWords e).length + 9 := by
  have h : fillerClause =
      ' ' :: "with various details and elements visible in the scene".data := rfl
  have h9 : (pyWordsAux
      "with various details and elements visible in the scene".data []).length = 9 := by
    decide
  rw [h]
  simp only [pyWords]
  rw [pyWordsAux_append_space, List.length_append, h9]

/-! ## Lemmas: character-run collapsing and duplicate-word removal -/

theorem pyCollapseAux_idem :
    ∀ (l : PyStr) (p : Char),
      pyCollapseAux p (pyCollapseAux p l) = pyCollapseAux p l := by
  intro l
  induction l with
  | nil => intro p; rfl
  | cons c rest ih =>
    intro p
    by_cases h : c = p ∧ c ≠ '\n'
    · simp only [pyCollapseAux, if_pos h]
      exact ih p
    · simp only [pyCollapseAux, if_neg h]
      rw [ih c]

theorem pyCollapse_idem (l : PyStr) :
    pyCollapse (pyCollapse l) = pyCollapse l := by
  match l with
  | [] => rfl
  | c :: rest =>
    show pyCollapse (c :: pyCollapseAux c rest) = c :: pyCollapseAux c rest
    show c :: pyCollapseAux c (pyCollapseAux c rest) = c :: pyCollapseAux c rest
    rw [pyCollapseAux_idem]

theorem pyCollapseAux_subset :
    ∀ (l : PyStr) (p c : Char), c ∈ pyCollapseAux p l → c ∈ l := by
  intro l
  induction l with
  | nil => intro p c h; exact absurd h (by simp [pyCollapseAux])
  | cons a rest ih =>
    intro p c h
    by_cases ha : a = p ∧ a ≠ '\n'
    · simp only [pyCollapseAux, if_pos ha] at h
      exact List.mem_cons_of_mem a (ih p c h)
    · simp only [pyCollapseAux, if_neg ha] at h
      rcases List.mem_cons.mp h with h | h
      · simp [h]
      · exact List.mem_cons_of_mem a (ih a c h)

theorem pyCollapse_subset (l : PyStr) (c : Char) (h : c ∈ pyCollapse l) :
    c ∈ l := by
  match l with
  | [] => exact absurd h (by simp [pyCollapse])
  | a :: rest =>
    rcases List.mem_cons.mp h with h | h
    · simp [h]
    · exact List.mem_cons_of_mem a (pyCollapseAux_subset rest a c h)

theorem pyCollapse_ne_nil (l : PyStr) (h : l ≠ []) : pyCollapse l ≠ [] := by
  match l, h with
  | c :: rest, _ => simp [pyCollapse]

theorem pyCollapseAux_append_space :
    ∀ (w : PyStr) (p : Char) (t : PyStr), ¬p.isWhitespace →
      (∀ c ∈ w, ¬c.isWhitespace) →
      pyCollapseAux p (w ++ ' ' :: t) =
        pyCollapseAux p w ++ ' ' :: pyCollapseAux ' ' t := by
  intro w
  induction w with
  | nil =>
    intro p t hp _
    have hps : ¬(' ' = p ∧ ' ' ≠ '\n') := by
      rintro ⟨h, -⟩
      exact hp (h ▸ (by decide : (' ').isWhitespace = true))
    simp only [List.nil_append, pyCollapseAux, if_neg hps]
  | cons c w' ih =>
    intro p t hp hw
    have hc : ¬c.isWhitespace = true := hw c (by simp)
    have hw' : ∀ d ∈ w', ¬d.isWhitespace := fun d hd => hw d (by simp [hd])
    by_cases h : c = p ∧ c ≠ '\n'
    · simp only [List.cons_append, List.append_eq, pyCollapseAux, if_pos h]
      exact ih p t hp hw'
    · simp only [List.cons_append, List.append_eq, pyCollapseAux, if_neg h]
      rw [ih c t hc hw']

theorem pyCollapse_joinSp (ws : List PyStr) (hws : GoodWords ws) :
    pyCollapse (joinSp ws) = joinSp (ws.map pyCollapse) := by
  induction ws with
  | nil => rfl
  | cons w rest ih =>
    obtain ⟨hwne, hwnws⟩ := hws w (by simp)
    have hrest : GoodWords rest := fun x hx => hws x (by simp [hx])
    match rest with
    | [] => rfl
    | x :: rest' =>
      match w, hwne with
      | c :: w0, _ =>
        have hc : ¬c.isWhitespace := hwnws c (by simp)
        have hw0 : ∀ d ∈ w0, ¬d.isWhitespace := fun d hd => hwnws d (by simp [hd])
        obtain ⟨d, t', hT, hd⟩ :=
          joinSp_head_no_ws (x :: rest') hrest (by simp)
        have hds : ¬(d = ' ' ∧ d ≠ '\n') := by
          rintro ⟨h, -⟩
          exact hd (h ▸ (by decide : (' ').isWhitespace = true))
        calc pyCollapse (joinSp ((c :: w0) :: x :: rest'))
            = c :: pyCollapseAux c (w0 ++ ' ' :: joinSp (x :: rest')) := rfl
          _ = c :: (pyCollapseAux c w0 ++ ' ' :: pyCollapseAux ' ' (joinSp (x :: rest'))) := by
              rw [pyCollapseAux_append_space w0 c _ hc hw0]
          _ = c :: (pyCollapseAux c w0 ++ ' ' :: pyCollapse (joinSp (x :: rest'))) := by
              rw [hT]
              simp only [pyCollapseAux, if_neg hds, pyCollapse]
          _ = c :: (pyCollapseAux c w0 ++ ' ' :: joinSp ((x :: rest').map pyCollapse)) := by
              rw [ih hrest]
          _ = joinSp (((c :: w0) :: x :: rest').map pyCollapse) := by
              simp only [List.map_cons, joinSp_cons_cons]
              rfl

theorem dedupConsecAux_idem :
    ∀ (l : List PyStr) (p : PyStr),
      dedupConsecAux p (dedupConsecAux p l) = dedupConsecAux p l := by
  intro l
  induction l with
  | nil => intro p; rfl
  | cons w rest ih =>
    intro p
    by_cases h : w = p
    · simp only [dedupConsecAux, if_pos h]
      exact ih p
    · simp only [dedupConsecAux, if_neg h]
      rw [ih w]

theorem dedupConsec_idem (l : List PyStr) :
    dedupConsec (dedupConsec l) = dedupConsec l := by
  match l with
  | [] => rfl
  | w :: rest =>
    show dedupConsec (w :: dedupConsecAux w rest) = w :: dedupConsecAux w rest
    show w :: dedupConsecAux w (dedupConsecAux w rest) = w :: dedupConsecAux w rest
    rw [dedupConsecAux_idem]

theorem dedupConsecAux_subset :
    ∀ (l : List PyStr) (p x : PyStr), x ∈ dedupConsecAux p l → x ∈ l := by
  intro l
  induction l with
  | nil => intro p x h; exact absurd h (by simp [dedupConsecAux])
  | cons w rest ih =>
    intro p x h
    by_cases hw : w = p
    · simp only [dedupConsecAux, if_pos hw] at h
      exact List.mem_cons_of_mem w (ih p x h)
    · simp only [dedupConsecAux, if_neg hw] at h
      rcases List.mem_cons.mp h with h | h
      · simp [h]
      · exact List.mem_cons_of_mem w (ih w x h)

theorem dedupConsec_subset (l : List PyStr) (x : PyStr)
    (h : x ∈ dedupConsec l) : x ∈ l := by
  match l with
  | [] => exact absurd h (by simp [dedupConsec])
  | w :: rest =>
    rcases List.mem_cons.mp h with h | h
    · simp [h]
    · exact List.mem_cons_of_mem w (dedupConsecAux_subset rest w x h)

theorem dedupConsec_ne_nil (l : List PyStr) (h : l ≠ []) :
    dedupConsec l ≠ [] := by
  match l, h with
  | w :: rest, _ => simp [dedupConsec]

/-! ## Lemmas: newline splitting and joining -/

theorem splitNL_no_newline :
    ∀ (l : PyStr), '\n' ∉ l → splitNL l = [l] := by
  intro l
  induction l with
  | nil => intro _; rfl
  | cons c rest ih =>
    intro h
    have hc : ¬(c = '\n') := fun hh => h (by simp [hh])
    have hr : '\n' ∉ rest := fun hh => h (by simp [hh])
    simp only [splitNL, if_neg hc, ih hr]

theorem splitNL_append_newline :
    ∀ (l t : PyStr), '\n' ∉ l → splitNL (l ++ '\n' :: t) = l :: splitNL t := by
  intro l
  induction l with
  | nil =>
    intro t _
    simp [splitNL]
  | cons c rest ih =>
    intro t h
    have hc : ¬(c = '\n') := fun hh => h (by simp [hh])
    have hr : '\n' ∉ rest := fun hh => h (by simp [hh])
    simp only [List.cons_append, List.append_eq, splitNL, if_neg hc, ih t hr]

theorem splitNL_joinNL :
    ∀ (lines : List PyStr), lines ≠ [] → (∀ l ∈ lines, '\n' ∉ l) →
      splitNL (joinNL lines) = lines := by
  intro lines
  induction lines with
  | nil => intro h; exact absurd rfl h
  | cons w rest ih =>
    intro _ hl
    match rest with
    | [] => exact splitNL_no_newline w (hl w (by simp))
    | x :: rest' =>
      show splitNL (w ++ '\n' :: joinNL (x :: rest')) = w :: x :: rest'
      rw [splitNL_append_newline w _ (hl w (by simp))]
      rw [ih (by simp) (fun l h => hl l (by simp [h]))]

theorem joinNL_ne_nil (lines : List PyStr) (hne : lines ≠ [])
    (h : ∀ w ∈ lines, w ≠ []) : joinNL lines ≠ [] := by
  match lines, hne with
  | w :: rest, _ =>
    match rest with
    | [] => exact h w (by simp)
    | x :: rest' =>
      show w ++ '\n' :: joinNL (x :: rest') ≠ []
      simp

/-! ## Lemmas: substring search -/

theorem pyContains_nil (kw : PyStr) (h : kw ≠ []) : pyContains [] kw = false := by
  match kw, h with
  | k :: kw', _ => rfl

theorem pyContains_ne_nil_left {l kw : PyStr} (hk : kw ≠ [])
    (h : pyContains l kw = true) : l ≠ [] := by
  intro he
  subst he
  rw [pyContains_nil kw hk] at h
  cases h

/-! ## Lemmas: the medical-report scan -/

theorem medStep_body (k : MedKey) (content : List PyStr) (secs : MedSections)
    (l : PyStr) (h : medBodyLine l = true) :
    medStep ⟨some k, content, secs⟩ l = ⟨some k, content ++ [l], secs⟩ := by
  simp only [medBodyLine, Bool.and_eq_true, decide_eq_true_eq,
    Bool.not_eq_true', List.all_eq_true] at h
  obtain ⟨⟨⟨⟨hstrip, hne0⟩, -⟩, hkw⟩, hmk⟩ := h
  have hne : ¬(l = []) := by
    intro he
    rw [he] at hne0
    simp at hne0
  have h1 : pyContains l "Technical Assessment".data = false := by
    have := hkw "Technical Assessment".data (by simp [medKeywords])
    simpa using this
  have h2 : pyContains l "Anatomical Observations".data = false := by
    have := hkw "Anatomical Observations".data (by simp [medKeywords])
    simpa using this
  have h3 : pyContains l "Notable Findings".data = false := by
    have := hkw "Notable Findings".data (by simp [medKeywords])
    simpa using this
  have h4 : pyContains l "Recommendations".data = false := by
    have := hkw "Recommendations".data (by simp [medKeywords])
    simpa using this
  simp only [medStep, hstrip, h1, h2, h3, h4]
  simp [hne, hmk]

theorem medFold_body (b : List PyStr) :
    ∀ (k : MedKey) (content : List PyStr) (secs : MedSections),
      (∀ l ∈ b, medBodyLine l = true) →
      b.foldl medStep ⟨some k, content, secs⟩ = ⟨some k, content ++ b, secs⟩ := by
  induction b with
  | nil => intro k content secs _; simp
  | cons l rest ih =>
    intro k content secs h
    rw [List.foldl_cons, medStep_body k content secs l (h l (by simp)),
      ih k (content ++ [l]) secs (fun x hx => h x (by simp [hx]))]
    simp

theorem medStep_heading_ta (st : MedState) :
    medStep st "Technical Assessment".data =
      { st with current := some .technical_assessment } := by
  have h0 : ¬("Technical Assessment".data = ([] : PyStr)) := by decide
  have h1 : pyContains "Technical Assessment".data
      "Technical Assessment".data = true := by decide
  simp only [medStep]
  rw [show pyStrip "Technical Assessment".data = "Technical Assessment".data
    from by decide]
  simp [h0, h1]

theorem medStep_heading_ao (st : MedState) :
    medStep st "Anatomical Observations".data =
      ⟨some .anatomical_observations, [],
        if st.current = some .technical_assessment then
          { st.sections with technical_assessment := joinNL st.content }
        else st.sections⟩ := by
  have h0 : ¬("Anatomical Observations".data = ([] : PyStr)) := by decide
  have h1 : pyContains "Anatomical Observations".data
      "Technical Assessment".data = false := by decide
  have h2 : pyContains "Anatomical Observations".data
      "Anatomical Observations".data = true := by decide
  simp only [medStep]
  rw [show pyStrip "Anatomical Observations".data = "Anatomical Observations".data
    from by decide]
  simp [h0, h1, h2]

theorem medStep_heading_nf (st : MedState) :
    medStep st "Notable Findings".data =
      ⟨some .notable_findings, [],
        if st.current = some .anatomical_observations then
          { st.sections with anatomical_observations := joinNL st.content }
        else st.sections⟩ := by
  have h0 : ¬("Notable Findings".data = ([] : PyStr)) := by decide
  have h1 : pyContains "Notable Findings".data
      "Technical Assessment".data = false := by decide
  have h2 : pyContains "Notable Findings".data
      "Anatomical Observations".data = false := by decide
  have h3 : pyContains "Notable Findings".data
      "Notable Findings".data = true := by decide
  simp only [medStep]
  rw [show pyStrip "Notable Findings".data = "Notable Findings".data
    from by decide]
  simp [h0, h1, h2, h3]

theorem medStep_heading_rec (st : MedState) :
    medStep st "Recommendations".data =
      ⟨some .recommendations, [],
        if st.current = some .notable_findings then
          { st.sections with notable_findings := joinNL st.content }
        else st.sections⟩ := by
  have h0 : ¬("Recommendations".data = ([] : PyStr)) := by decide
  have h1 : pyContains "Recommendations".data
      "Technical Assessment".data = false := by decide
  have h2 : pyContains "Recommendations".data
      "Anatomical Observations".data = false := by decide
  have h3 : pyContains "Recommendations".data
      "Notable Findings".data = false := by decide
  have h4 : pyContains "Recommendations".data
      "Recommendations".data = true := by decide
  simp only [medStep]
  rw [show pyStrip "Recommendations".data = "Recommendations".data
    from by decide]
  simp [h0, h1, h2, h3, h4]

theorem medBodyLine_ne_nil {l : PyStr} (h : medBodyLine l = true) : l ≠ [] := by
  intro he
  subst he
  rw [show medBodyLine [] = false from by decide] at h
  cases h

theorem medBodyLine_no_nl {l : PyStr} (h : medBodyLine l = true) : '\n' ∉ l := by
  simp only [medBodyLine, Bool.and_eq_true, Bool.not_eq_true'] at h
  have hc : l.contains '\n' = false := h.1.1.2
  intro hm
  simp at hc
  exact hc hm

/-- C1 counterexample: in the input `"Technical Assessment\nfoo"` the
heading keyword `Technical Assessment` is matched and the text `foo`
follows the last matched heading, yet `parse_medical_report` leaves the
`technical_assessment` section empty — the final accumulator is not
flushed into the last active section, contradicting the claim. -/
theorem C1_counterexample :
    (parse_medical_report ("Technical Assessment\nfoo").data).technical_assessment
        = [] ∧
      ("foo").data ≠ ([] : PyStr) := by
  constructor
  · rfl
  · decide

/-- C1 (amended): the final accumulator is flushed only when the last
active section is the last configured key (`recommendations`); for
well-formed inputs with all four headings present in configured order and
non-empty bodies of plain content lines, all four keys come back
populated with exactly the text between their heading and the next. -/
theorem C1_wellformed_four_headings
    (b1 b2 b3 b4 : List PyStr)
    (h1 : ∀ l ∈ b1, medBodyLine l = true) (hn1 : b1 ≠ [])
    (h2 : ∀ l ∈ b2, medBodyLine l = true) (hn2 : b2 ≠ [])
    (h3 : ∀ l ∈ b3, medBodyLine l = true) (hn3 : b3 ≠ [])
    (h4 : ∀ l ∈ b4, medBodyLine l = true) (hn4 : b4 ≠ []) :
    parse_medical_report
      (joinNL (["Technical Assessment".data] ++ b1 ++
        ["Anatomical Observations".data] ++ b2 ++
        ["Notable Findings".data] ++ b3 ++
        ["Recommendations".data] ++ b4)) =
      ⟨joinNL b1, joinNL b2, joinNL b3, joinNL b4⟩ ∧
    joinNL b1 ≠ [] ∧ joinNL b2 ≠ [] ∧ joinNL b3 ≠ [] ∧ joinNL b4 ≠ [] := by
  have hnl : ∀ l ∈ (["Technical Assessment".data] ++ b1 ++
      ["Anatomical Observations".data] ++ b2 ++
      ["Notable Findings".data] ++ b3 ++
      ["Recommendations".data] ++ b4), '\n' ∉ l := by
    intro l hl
    simp only [List.append_assoc, List.mem_append, List.mem_singleton] at hl
    rcases hl with h | h | h | h | h | h | h | h
    · subst h; decide
    · exact medBodyLine_no_nl (h1 l h)
    · subst h; decide
    · exact medBodyLine_no_nl (h2 l h)
    · subst h; decide
    · exact medBodyLine_no_nl (h3 l h)
    · subst h; decide
    · exact medBodyLine_no_nl (h4 l h)
  have hsplit := splitNL_joinNL _ (by simp) hnl
  have e1 : medStep ⟨none, [], MedSections.empty⟩ "Technical Assessment".data
      = ⟨some .technical_assessment, [], MedSections.empty⟩ := by
    rw [medStep_heading_ta]
  have e2 : b1.foldl medStep ⟨some .technical_assessment, [], MedSections.empty⟩
      = ⟨some .technical_assessment, b1, MedSections.empty⟩ := by
    simpa using medFold_body b1 _ [] _ h1
  have e3 : medStep ⟨some .technical_assessment, b1, MedSections.empty⟩
      "Anatomical Observations".data
      = ⟨some .anatomical_observations, [], ⟨joinNL b1, [], [], []⟩⟩ := by
    rw [medStep_heading_ao]
    simp [MedSections.empty]
  have e4 : b2.foldl medStep ⟨some .anatomical_observations, [],
        ⟨joinNL b1, [], [], []⟩⟩
      = ⟨some .anatomical_observations, b2, ⟨joinNL b1, [], [], []⟩⟩ := by
    simpa using medFold_body b2 _ [] _ h2
  have e5 : medStep ⟨some .anatomical_observations, b2, ⟨joinNL b1, [], [], []⟩⟩
      "Notable Findings".data
      = ⟨some .notable_findings, [], ⟨joinNL b1, joinNL b2, [], []⟩⟩ := by
    rw [medStep_heading_nf]
    simp
  have e6 : b3.foldl medStep ⟨some .notable_findings, [],
        ⟨joinNL b1, joinNL b2, [], []⟩⟩
      = ⟨some .notable_findings, b3, ⟨joinNL b1, joinNL b2, [], []⟩⟩ := by
    simpa using medFold_body b3 _ [] _ h3
  have e7 : medStep ⟨some .notable_findings, b3, ⟨joinNL b1, joinNL b2, [], []⟩⟩
      "Recommendations".data
      = ⟨some .recommendations, [], ⟨joinNL b1, joinNL b2, joinNL b3, []⟩⟩ := by
    rw [medStep_heading_rec]
    simp
  have e8 : b4.foldl medStep ⟨some .recommendations, [],
        ⟨joinNL b1, joinNL b2, joinNL b3, []⟩⟩
      = ⟨some .recommendations, b4, ⟨joinNL b1, joinNL b2, joinNL b3, []⟩⟩ := by
    simpa using medFold_body b4 _ [] _ h4
  refine ⟨?_, ?_, ?_, ?_, ?_⟩
  · rw [parse_medical_report, hsplit]
    simp only [List.append_assoc, List.foldl_append, List.foldl_cons,
      List.foldl_nil, e1, e2, e3, e4, e5, e6, e7, e8]
    simp
  · exact joinNL_ne_nil b1 hn1 (fun w hw => medBodyLine_ne_nil (h1 w hw))
  · exact joinNL_ne_nil b2 hn2 (fun w hw => medBodyLine_ne_nil (h2 w hw))
  · exact joinNL_ne_nil b3 hn3 (fun w hw => medBodyLine_ne_nil (h3 w hw))
  · exact joinNL_ne_nil b4 hn4 (fun w hw => medBodyLine_ne_nil (h4 w hw))

/-- C1 witness: the amended theorem applied to a concrete well-formed
four-section report. -/
theorem C1_wellformed_four_headings_witness :
    parse_medical_report
      (joinNL (["Technical Assessment".data] ++ [("alpha").data] ++
        ["Anatomical Observations".data] ++ [("beta").data] ++
        ["Notable Findings".data] ++ [("gamma").data] ++
        ["Recommendations".data] ++ [("delta").data])) =
      ⟨"alpha".data, "beta".data, "gamma".data, "delta".data⟩ ∧
    joinNL [("alpha").data] ≠ [] ∧ joinNL [("beta").data] ≠ [] ∧
    joinNL [("gamma").data] ≠ [] ∧ joinNL [("delta").data] ≠ [] :=
  C1_wellformed_four_headings
    [("alpha").data] [("beta").data] [("gamma").data] [("delta").data]
    (by decide) (by decide) (by decide) (by decide)
    (by decide) (by decide) (by decide) (by decide)

theorem pyStartsWith_ne_nil {l : PyStr} {a : Char} {p : PyStr}
    (h : pyStartsWith l (a :: p) = true) : l ≠ [] := by
  intro he
  subst he
  cases h

/-- C2 counterexample: the line `"RECOMMENDATIONS"` contains the keyword
`Recommendations` ignoring case, yet `parse_medical_report` starts no
section on it (the match is case-sensitive), so the following body text
is dropped and every section stays empty. -/
theorem C2_counterexample :
    pyContains (asciiLower ("RECOMMENDATIONS").data)
        (asciiLower ("Recommendations").data) = true ∧
      parse_medical_report ("RECOMMENDATIONS\nbody").data = MedSections.empty := by
  constructor
  · decide
  · rfl

/-- C2 (amended): in the medical parser heading detection is a
case-sensitive substring match on the stripped line, checked in the
`if`/`elif` priority order, so a line containing two keywords resolves to
the first-checked one; on a match of a non-first keyword the accumulator
is flushed into the immediately preceding configured section only when
that section is the currently active one (otherwise its content is
discarded) and is then cleared, while a match of the first keyword
neither flushes nor clears.  In the SEO parser the match is
case-insensitive, on the lowercased stripped line. -/
theorem C2_heading_match_semantics :
    (∀ (st : MedState) (l : PyStr),
        pyContains (pyStrip l) ("Technical Assessment").data = true →
        medStep st l = { st with current := some .technical_assessment }) ∧
    (∀ (st : MedState) (l : PyStr),
        pyContains (pyStrip l) ("Technical Assessment").data = false →
        pyContains (pyStrip l) ("Anatomical Observations").data = true →
        medStep st l = ⟨some .anatomical_observations, [],
          if st.current = some .technical_assessment then
            { st.sections with technical_assessment := joinNL st.content }
          else st.sections⟩) ∧
    (∀ (st : SeoState) (l : PyStr),
        pyContains (asciiLower (pyStrip l)) ("meta title").data = true →
        seoStep st l = { st with current := some .meta_title }) := by
  refine ⟨?_, ?_, ?_⟩
  · intro st l h
    have hne : pyStrip l ≠ [] := pyContains_ne_nil_left (by decide) h
    simp [medStep, hne, h]
  · intro st l hta hao
    have hne : pyStrip l ≠ [] := pyContains_ne_nil_left (by decide) hao
    simp [medStep, hne, hta, hao]
  · intro st l h
    have h0 : asciiLower (pyStrip l) ≠ [] := pyContains_ne_nil_left (by decide) h
    have hne : pyStrip l ≠ [] := by
      intro he
      exact h0 (by simp [he, asciiLower])
    simp [seoStep, hne, h]

/-- C2 witness: the first-keyword rule applied to the heading line
`"Technical Assessment"` in the empty state. -/
theorem C2_heading_match_semantics_witness :
    medStep ⟨none, [], MedSections.empty⟩ ("Technical Assessment").data =
      ⟨some .technical_assessment, [], MedSections.empty⟩ :=
  C2_heading_match_semantics.1 ⟨none, [], MedSections.empty⟩
    ("Technical Assessment").data (by decide)

/-- C3 counterexample: with the `recommendations` section active, the
content line `"1.5 cm nodule visible"` starts with `"1."` and is
therefore dropped by the scan, leaving the section empty — the claim
says it is appended. -/
theorem C3_counterexample :
    (parse_medical_report
        ("Recommendations\n1.5 cm nodule visible").data).recommendations = [] ∧
      ("1.5 cm nodule visible").data ≠ ([] : PyStr) := by
  constructor
  · rfl
  · decide

/-- C3 (amended): while a section is active, a non-blank line containing
no heading keyword is appended exactly when it does not start with a
numbered-marker pair (`'1.'`–`'4.'` in the medical parser, `'1.'`–`'5.'`
in the social parser); any line beginning with such a pair — including
content lines like `"1.5 cm nodule visible"` — is dropped, not just bare
markers. -/
theorem C3_numbered_marker_filter :
    (∀ (k : MedKey) (content : List PyStr) (secs : MedSections) (l : PyStr),
        medBodyLine l = true →
        medStep ⟨some k, content, secs⟩ l = ⟨some k, content ++ [l], secs⟩) ∧
    (∀ (st : MedState) (l : PyStr),
        (∀ kw ∈ medKeywords, pyContains (pyStrip l) kw = false) →
        pyStartsWith (pyStrip l) ("1.").data = true →
        medStep st l = st) ∧
    (∀ st : SocialState,
        socialStep st ("1.5 cm nodule visible").data = st) := by
  refine ⟨medStep_body, ?_, ?_⟩
  · intro st l hkw hst
    have hne : pyStrip l ≠ [] := pyStartsWith_ne_nil hst
    have h1 : pyContains (pyStrip l) ("Technical Assessment").data = false := by
      simpa using hkw ("Technical Assessment").data (by simp [medKeywords])
    have h2 : pyContains (pyStrip l) ("Anatomical Observations").data = false := by
      simpa using hkw ("Anatomical Observations").data (by simp [medKeywords])
    have h3 : pyContains (pyStrip l) ("Notable Findings").data = false := by
      simpa using hkw ("Notable Findings").data (by simp [medKeywords])
    have h4 : pyContains (pyStrip l) ("Recommendations").data = false := by
      simpa using hkw ("Recommendations").data (by simp [medKeywords])
    simp [medStep, hne, h1, h2, h3, h4, hst]
  · intro st
    have e1 : pyStrip ("1.5 cm nodule visible").data =
        ("1.5 cm nodule visible").data := by decide
    have e2 : asciiLower ("1.5 cm nodule visible").data =
        ("1.5 cm nodule visible").data := by decide
    have c1 : pyContains ("1.5 cm nodule visible").data ("instagram").data
        = false := by decide
    have c2 : pyContains ("1.5 cm nodule visible").data ("twitter").data
        = false := by decide
    have c3 : pyContains ("1.5 cm nodule visible").data ("x post").data
        = false := by decide
    have c4 : pyContains ("1.5 cm nodule visible").data ("facebook").data
        = false := by decide
    have c5 : pyContains ("1.5 cm nodule visible").data ("hashtag").data
        = false := by decide
    have hst : pyStartsWith ("1.5 cm nodule visible").data ("1.").data
        = true := by decide
    have hne : ¬(("1.5 cm nodule visible").data = ([] : PyStr)) := by decide
    simp [socialStep, e1, e2, c1, c2, c3, c4, c5, hst, hne]

/-- C3 witness: a content line that satisfies the filter is appended to
the active section's accumulator. -/
theorem C3_numbered_marker_filter_witness :
    medStep ⟨some .recommendations, [], MedSections.empty⟩
        ("nodule measures two cm").data =
      ⟨some .recommendations, [("nodule measures two cm").data],
        MedSections.empty⟩ :=
  C3_numbered_marker_filter.1 .recommendations [] MedSections.empty
    ("nodule measures two cm").data (by decide)

/-! ## Lemmas: the `analyze_medical_image` section loop -/

theorem tsGet_tsAppend_ne (k k' : TsKey) (h : k ≠ k') (s : TsSections)
    (l : PyStr) : tsGet k (tsAppend k' s l) = tsGet k s := by
  cases k <;> cases k' <;> simp_all [tsGet, tsAppend]

theorem tsStep_not_containing (k : TsKey) (st : TsState) (l : PyStr)
    (hk : pyContains l (tsKeyword k) = false)
    (h1 : tsGet k st.sections = []) (h2 : st.current ≠ some k) :
    tsGet k ((tsStep st l).sections) = [] ∧ (tsStep st l).current ≠ some k := by
  by_cases c1 : pyContains l (tsKeyword .key_findings) = true
  · have hne : k ≠ .key_findings := by
      intro he
      subst he
      rw [hk] at c1
      cases c1
    simp [tsStep, c1, h1, hne.symm]
  · by_cases c2 : pyContains l (tsKeyword .potential_observations) = true
    · have hne : k ≠ .potential_observations := by
        intro he
        subst he
        rw [hk] at c2
        cases c2
      simp [tsStep, c1, c2, h1, hne.symm]
    · by_cases c3 : pyContains l (tsKeyword .recommendations) = true
      · have hne : k ≠ .recommendations := by
          intro he
          subst he
          rw [hk] at c3
          cases c3
        simp [tsStep, c1, c2, c3, h1, hne.symm]
      · simp only [tsStep, c1, c2, c3, Bool.false_eq_true, if_false]
        cases hcur : st.current with
        | none => exact ⟨h1, by simp [hcur]⟩
        | some k'' =>
          have hkk : k ≠ k'' := by
            intro he
            exact h2 (by rw [hcur, he])
          by_cases hs : pyStrip l = []
          · simp [hs, h1, hcur, (Ne.symm hkk)]
          · simp only [hs, if_false]
            refine ⟨?_, by simpa [hcur] using h2⟩
            simpa [tsGet_tsAppend_ne k k'' hkk] using h1

theorem tsFold_missing (k : TsKey) :
    ∀ (lines : List PyStr) (st : TsState),
      (∀ l ∈ lines, pyContains l (tsKeyword k) = false) →
      tsGet k st.sections = [] → st.current ≠ some k →
      tsGet k ((lines.foldl tsStep st).sections) = [] := by
  intro lines
  induction lines with
  | nil => intro st _ h1 _; simpa using h1
  | cons l rest ih =>
    intro st h h1 h2
    rw [List.foldl_cons]
    obtain ⟨g1, g2⟩ := tsStep_not_containing k st l (h l (by simp)) h1 h2
    exact ih (tsStep st l) (fun x hx => h x (by simp [hx])) g1 g2

/-- C4 counterexample: the heading line `"Key Findings:"` does not
contain the configured keyword `"1. Key Findings:"`, so for an input
whose only heading line is `"Key Findings:"` the `key_findings` section
stays empty although text follows it — the claim says it is populated. -/
theorem C4_counterexample :
    (ts_parse_sections ("Key Findings:\nfoo").data).key_findings = [] ∧
      ("foo").data ≠ ([] : PyStr) := by
  constructor
  · rfl
  · decide

/-- C4 (amended): for every input in which a configured heading keyword
(`"1. Key Findings:"`, `"2. Potential Observations:"`,
`"3. Recommendations:"`) never occurs, the corresponding section key is
the empty string, and the parser is a total function so no exception is
raised; for an input whose only heading line is the configured
`"1. Key Findings:"`, the `key_findings` section is populated with the
text following it and every other section is the empty string. -/
theorem C4_missing_heading_defaults :
    (∀ (text : PyStr) (k : TsKey),
        (∀ l ∈ splitNL text, pyContains l (tsKeyword k) = false) →
        tsGet k (ts_parse_sections text) = []) ∧
    ts_parse_sections ("1. Key Findings:\nfoo\nbar").data =
      ⟨("foo\nbar\n").data, [], []⟩ := by
  constructor
  · intro text k h
    exact tsFold_missing k (splitNL text) ⟨none, TsSections.empty⟩ h
      (by cases k <;> rfl) (by simp)
  · rfl

/-- C4 witness: the amended theorem applied to an input that contains no
heading keyword at all. -/
theorem C4_missing_heading_defaults_witness :
    tsGet .key_findings (ts_parse_sections ("just some prose").data) = [] :=
  C4_missing_heading_defaults.1 ("just some prose").data .key_findings
    (by decide)

/-- C5 counterexample: on the 2-word input `"a dog"`, when the expansion
call raises, the `except` handler (text_service.py lines 323–326)
returns the original text as a success — a string of fewer than 6
words, contradicting the claim that every short input yields a result of
at least 6 words. -/
theorem C5_counterexample :
    (enhance_alt_text (fun _ => Except.error ("GenerationError").data)
        ("a dog").data 6).enhanced_alt_text = ("a dog").data ∧
      (pyWords ("a dog").data).length < 6 := by
  constructor
  · rfl
  · decide

/-- C5 (amended): `enhance_alt_text` with `min_words = 6` counts
whitespace-delimited words; an input of at least 6 words is returned
unchanged with zero expansion calls.  A shorter input issues exactly one
expansion attempt — never more: when the call succeeds the result has at
least 6 words, with the fixed filler clause appended if the expansion is
still short, but when the call fails the `except` handler returns the
original (still short) text wrapped in a success response. -/
theorem C5_enhance_alt_text (expand : PyStr → Except PyStr PyStr)
    (alt_text : PyStr) :
    (6 ≤ (pyWords alt_text).length →
      enhance_alt_text expand alt_text 6 = ⟨alt_text, 0⟩) ∧
    ((pyWords alt_text).length < 6 →
      (enhance_alt_text expand alt_text 6).expansionCalls = 1 ∧
      (∀ e, expand alt_text = .ok e →
        6 ≤ (pyWords
          (enhance_alt_text expand alt_text 6).enhanced_alt_text).length) ∧
      (∀ err, expand alt_text = .error err →
        (enhance_alt_text expand alt_text 6).enhanced_alt_text = alt_text)) := by
  constructor
  · intro h
    simp [enhance_alt_text, h]
  · intro h
    have hnot : ¬(6 ≤ (pyWords alt_text).length) := by omega
    refine ⟨?_, ?_, ?_⟩
    · cases he : expand alt_text with
      | ok e => simp [enhance_alt_text, hnot, he]
      | error err => simp [enhance_alt_text, hnot, he]
    · intro e he
      by_cases hlen : (pyWords e).length < 6
      · simp only [enhance_alt_text, hnot, if_false, he, hlen, if_true]
        rw [pyWords_append_filler]
        omega
      · simp only [enhance_alt_text, hnot, if_false, he, hlen]
        omega
    · intro err he
      simp [enhance_alt_text, hnot, he]

/-- C5 witness: `"a dog"` (2 words) issues one expansion attempt; with a
successful expansion oracle still returning only 3 words, the filler
clause brings the result above 6 words. -/
theorem C5_enhance_alt_text_witness :
    (enhance_alt_text (fun _ => Except.ok ("a big dog").data) ("a dog").data
        6).expansionCalls = 1 ∧
    6 ≤ (pyWords (enhance_alt_text (fun _ => Except.ok ("a big dog").data)
        ("a dog").data 6).enhanced_alt_text).length := by
  have h := (C5_enhance_alt_text (fun _ => Except.ok ("a big dog").data)
    ("a dog").data).2 (by decide)
  exact ⟨h.1, h.2.1 ("a big dog").data rfl⟩

/-- C6: the `/api/analyze-medical-image` endpoint's file-type validation
calls `allowed_file(file.filename)` with the default extension set, so a
`.tiff` or `.dcm` filename is rejected even though the module's own
`ALLOWED_MEDICAL_EXTENSIONS` constant declares them allowed — the
declared medical allow-set is never passed to the check. -/
theorem C6_medical_extensions_not_used :
    medical_route_file_check ("scan.tiff").data = false ∧
    medical_route_file_check ("image.dcm").data = false ∧
    ALLOWED_MEDICAL_EXTENSIONS.contains ("tiff").data = true ∧
    ALLOWED_MEDICAL_EXTENSIONS.contains ("dcm").data = true ∧
    allowed_file ("scan.tiff").data (some ALLOWED_MEDICAL_EXTENSIONS) = true := by
  refine ⟨by decide, by decide, by decide, by decide, by decide⟩

/-! ## Lemmas: rounding and the duplicate-removal fold -/

theorem le_pyRoundHalfEven {m : ℤ} {q : ℚ} (h : (m : ℚ) ≤ q) :
    m ≤ pyRoundHalfEven q := by
  have hf : m ≤ ⌊q⌋ := Int.le_floor.mpr h
  simp only [pyRoundHalfEven]
  split_ifs <;> omega

theorem pyRoundHalfEven_le {n : ℤ} {q : ℚ} (h : q ≤ (n : ℚ)) :
    pyRoundHalfEven q ≤ n := by
  have hf : ⌊q⌋ ≤ n := by
    have := Int.floor_le_floor h
    simpa using this
  have hfq : (⌊q⌋ : ℚ) ≤ q := Int.floor_le q
  simp only [pyRoundHalfEven]
  split_ifs with h1 h2 h3
  · exact hf
  · have h4 : (⌊q⌋ : ℚ) < (n : ℚ) := by linarith
    have : ⌊q⌋ < n := by exact_mod_cast h4
    omega
  · exact hf
  · have heq : q - ⌊q⌋ = 1/2 := le_antisymm (not_lt.mp h2) (not_lt.mp h1)
    have h4 : (⌊q⌋ : ℚ) < (n : ℚ) := by linarith
    have : ⌊q⌋ < n := by exact_mod_cast h4
    omega

theorem round2_bounds {s : ℚ} (h1 : 7/10 < s) (h2 : s ≤ 1) :
    70 ≤ round2 (s * 100) ∧ round2 (s * 100) ≤ 100 := by
  have hlo : ((7000 : ℤ) : ℚ) ≤ s * 100 * 100 := by push_cast; linarith
  have hhi : s * 100 * 100 ≤ ((10000 : ℤ) : ℚ) := by push_cast; linarith
  have Hlo : (7000 : ℤ) ≤ pyRoundHalfEven (s * 100 * 100) := le_pyRoundHalfEven hlo
  have Hhi : pyRoundHalfEven (s * 100 * 100) ≤ (10000 : ℤ) := pyRoundHalfEven_le hhi
  have Hlo' : ((7000 : ℤ) : ℚ) ≤ (pyRoundHalfEven (s * 100 * 100) : ℚ) :=
    Int.cast_le.mpr Hlo
  have Hhi' : ((pyRoundHalfEven (s * 100 * 100) : ℤ) : ℚ) ≤ ((10000 : ℤ) : ℚ) :=
    Int.cast_le.mpr Hhi
  rw [round2]
  push_cast at Hlo' Hhi'
  constructor
  · rw [le_div_iff₀ (by norm_num : (0:ℚ) < 100)]
    linarith
  · rw [div_le_iff₀ (by norm_num : (0:ℚ) < 100)]
    linarith

theorem updUnique_mem {acc : List DetObj} {o x : DetObj}
    (h : x ∈ updUnique acc o) : x ∈ acc ∨ x = o := by
  unfold updUnique at h
  by_cases hc : acc.any (fun a => a.name == o.name) = true
  · rw [if_pos hc] at h
    obtain ⟨a, ha, hx⟩ := List.mem_map.mp h
    by_cases hcond : a.name = o.name ∧ a.confidence < o.confidence
    · rw [if_pos hcond] at hx
      right
      exact hx.symm
    · rw [if_neg hcond] at hx
      left
      exact hx ▸ ha
  · rw [if_neg hc] at h
    rcases List.mem_append.mp h with h | h
    · left; exact h
    · right; simpa using h

theorem foldl_updUnique_mem :
    ∀ (objects acc : List DetObj) (x : DetObj),
      x ∈ objects.foldl updUnique acc → x ∈ acc ∨ x ∈ objects := by
  intro objects
  induction objects with
  | nil =>
    intro acc x h
    left
    simpa using h
  | cons o rest ih =>
    intro acc x h
    rw [List.foldl_cons] at h
    rcases ih (updUnique acc o) x h with h | h
    · rcases updUnique_mem h with h | h
      · left; exact h
      · right; simp [h]
    · right; simp [h]

theorem updUnique_map_name (acc : List DetObj) (o : DetObj) :
    (updUnique acc o).map DetObj.name =
      if acc.any (fun a => a.name == o.name) then acc.map DetObj.name
      else acc.map DetObj.name ++ [o.name] := by
  unfold updUnique
  by_cases hc : acc.any (fun a => a.name == o.name) = true
  · rw [if_pos hc, if_pos hc, List.map_map]
    refine List.map_congr_left ?_
    intro a _
    by_cases hcond : a.name = o.name ∧ a.confidence < o.confidence
    · simp [hcond, hcond.1]
    · simp [hcond]
  · rw [if_neg hc, if_neg hc, List.map_append]
    rfl

theorem foldl_updUnique_nodup :
    ∀ (objects acc : List DetObj), ((acc.map DetObj.name)).Nodup →
      (((objects.foldl updUnique acc).map DetObj.name)).Nodup := by
  intro objects
  induction objects with
  | nil => intro acc h; simpa using h
  | cons o rest ih =>
    intro acc h
    rw [List.foldl_cons]
    refine ih (updUnique acc o) ?_
    rw [updUnique_map_name]
    by_cases hc : acc.any (fun a => a.name == o.name) = true
    · rw [if_pos hc]; exact h
    · rw [if_neg hc]
      have hno : o.name ∉ acc.map DetObj.name := by
        intro hm
        obtain ⟨a, ha, hae⟩ := List.mem_map.mp hm
        have h5 := List.any_eq_false.mp (Bool.eq_false_iff.mpr hc) a ha
        simp [hae] at h5
      simp [List.nodup_append, h, hno]

theorem updUnique_name_cover (acc : List DetObj) (o : DetObj) :
    (∀ x ∈ acc, ∃ a ∈ updUnique acc o, a.name = x.name) ∧
      (∃ a ∈ updUnique acc o, a.name = o.name) := by
  unfold updUnique
  by_cases hc : acc.any (fun a => a.name == o.name) = true
  · rw [if_pos hc]
    constructor
    · intro x hx
      refine ⟨if x.name = o.name ∧ x.confidence < o.confidence then o else x,
        List.mem_map.mpr ⟨x, hx, rfl⟩, ?_⟩
      by_cases hcond : x.name = o.name ∧ x.confidence < o.confidence
      · simp [hcond, hcond.1]
      · simp [hcond]
    · obtain ⟨b, hb, hbe⟩ := List.any_eq_true.mp hc
      have hbe' : b.name = o.name := by simpa using hbe
      refine ⟨if b.name = o.name ∧ b.confidence < o.confidence then o else b,
        List.mem_map.mpr ⟨b, hb, rfl⟩, ?_⟩
      by_cases hlt : b.confidence < o.confidence
      · simp [hbe', hlt]
      · simp [hbe', hlt]
  · rw [if_neg hc]
    constructor
    · intro x hx
      exact ⟨x, by simp [hx], rfl⟩
    · exact ⟨o, by simp, rfl⟩

theorem updUnique_max {acc : List DetObj} {o : DetObj} {seen : List DetObj}
    (h1 : ∀ x ∈ seen, ∃ a ∈ acc, a.name = x.name)
    (h2 : ∀ a ∈ acc, ∀ x ∈ seen, x.name = a.name →
      x.confidence ≤ a.confidence) :
    ∀ b ∈ updUnique acc o, ∀ x ∈ seen ++ [o], x.name = b.name →
      x.confidence ≤ b.confidence := by
  intro b hb x hx hname
  unfold updUnique at hb
  by_cases hc : acc.any (fun a => a.name == o.name) = true
  · rw [if_pos hc] at hb
    obtain ⟨a, ha, hba⟩ := List.mem_map.mp hb
    by_cases hcond : a.name = o.name ∧ a.confidence < o.confidence
    · rw [if_pos hcond] at hba
      have hbo : b = o := hba.symm
      subst hbo
      rcases List.mem_append.mp hx with hxs | hxo
      · have hxa : x.name = a.name := by rw [hname, hcond.1]
        have := h2 a ha x hxs hxa
        linarith [hcond.2]
      · have hxo' : x = b := by simpa using hxo
        simp [hxo']
    · rw [if_neg hcond] at hba
      have hbeq : b = a := hba.symm
      subst hbeq
      rcases List.mem_append.mp hx with hxs | hxo
      · exact h2 b ha x hxs hname
      · have hxo' : x = o := by simpa using hxo
        subst hxo'
        have hno : ¬(b.confidence < x.confidence) := fun hlt =>
          hcond ⟨hname.symm, hlt⟩
        linarith [not_lt.mp hno]
  · rw [if_neg hc] at hb
    have hnone : ∀ a ∈ acc, a.name ≠ o.name := by
      intro a ha he
      have h5 := List.any_eq_false.mp (Bool.eq_false_iff.mpr hc) a ha
      simp [he] at h5
    rcases List.mem_append.mp hb with hba | hbo
    · rcases List.mem_append.mp hx with hxs | hxo
      · exact h2 b hba x hxs hname
      · have hxo' : x = o := by simpa using hxo
        subst hxo'
        exact absurd hname.symm (hnone b hba)
    · have hbo' : b = o := by simpa using hbo
      subst hbo'
      rcases List.mem_append.mp hx with hxs | hxo
      · obtain ⟨a, ha, han⟩ := h1 x hxs
        exact absurd (han.trans hname) (hnone a ha)
      · have hxo' : x = b := by simpa using hxo
        simp [hxo']

theorem foldl_updUnique_max :
    ∀ (objects acc seen : List DetObj),
      (∀ x ∈ seen, ∃ a ∈ acc, a.name = x.name) →
      (∀ a ∈ acc, ∀ x ∈ seen, x.name = a.name →
        x.confidence ≤ a.confidence) →
      (∀ b ∈ objects.foldl updUnique acc, ∀ x ∈ seen ++ objects,
        x.name = b.name → x.confidence ≤ b.confidence) := by
  intro objects
  induction objects with
  | nil =>
    intro acc seen h1 h2
    simpa using h2
  | cons o rest ih =>
    intro acc seen h1 h2
    have s1 : ∀ x ∈ seen ++ [o], ∃ a ∈ updUnique acc o, a.name = x.name := by
      intro x hx
      rcases List.mem_append.mp hx with hxs | hxo
      · obtain ⟨a, ha, han⟩ := h1 x hxs
        obtain ⟨b, hb, hbn⟩ := (updUnique_name_cover acc o).1 a ha
        exact ⟨b, hb, hbn.trans han⟩
      · have hxo' : x = o := by simpa using hxo
        rw [hxo']
        exact (updUnique_name_cover acc o).2
    have s2 : ∀ b ∈ updUnique acc o, ∀ x ∈ seen ++ [o], x.name = b.name →
        x.confidence ≤ b.confidence := updUnique_max h1 h2
    have := ih (updUnique acc o) (seen ++ [o]) s1 s2
    intro b hb x hx hname
    refine this b (by simpa using hb) x ?_ hname
    simpa using hx

/-- C7 counterexample: a detection with raw score `0.8` is returned with
confidence `round(0.8 * 100, 2) = 80`, a percentage — not a value in the
interval `[0, 1]` as the claim states. -/
theorem C7_counterexample :
    detect_objects true [((4 : ℚ)/5, ("dog").data)] =
      [⟨("dog").data, 80⟩] ∧ ¬((80 : ℚ) ≤ 1) := by
  have h1 : ((7:ℚ)/10 < 4/5) := by norm_num
  have h2 : round2 ((4:ℚ)/5 * 100) = 80 := by
    rw [round2]
    norm_num [pyRoundHalfEven]
  constructor
  · simp [detect_objects, updUnique, h1, h2]
  · norm_num

/-- C7 (amended): every element returned by `detect_objects` comes from a
detection whose raw score is strictly above the `0.7` threshold and
carries the rounded percentage `round(score * 100, 2)` as its
confidence, so for raw scores in `[0, 1]` every returned confidence lies
in `[70, 100]` (not `[0, 1]`); duplicates by name are removed keeping
the single highest-confidence detection per name under strict `>`
comparison, so returned names are pairwise distinct and each kept
confidence dominates every same-name detection above the threshold; an
unavailable detector yields the empty list. -/
theorem C7_detect_objects_spec :
    (∀ dets : List (ℚ × PyStr), detect_objects false dets = []) ∧
    (∀ dets : List (ℚ × PyStr), (∀ p ∈ dets, 0 ≤ p.1 ∧ p.1 ≤ 1) →
      ∀ o ∈ detect_objects true dets,
        70 ≤ o.confidence ∧ o.confidence ≤ 100) ∧
    (∀ dets : List (ℚ × PyStr),
      ((detect_objects true dets).map DetObj.name).Nodup) ∧
    (∀ dets : List (ℚ × PyStr), ∀ o ∈ detect_objects true dets,
      ∀ p ∈ dets, p.2 = o.name → 7/10 < p.1 →
        round2 (p.1 * 100) ≤ o.confidence) := by
  refine ⟨fun dets => rfl, ?_, ?_, ?_⟩
  · intro dets hb o ho
    have ho' : o ∈ (dets.filterMap fun sl =>
        if (7 : ℚ)/10 < sl.1 then some ⟨sl.2, round2 (sl.1 * 100)⟩
        else none).foldl updUnique [] := ho
    rcases foldl_updUnique_mem _ [] o ho' with h | h
    · exact absurd h (by simp)
    · obtain ⟨p, hp, hf⟩ := List.mem_filterMap.mp h
      by_cases hgt : (7 : ℚ)/10 < p.1
      · rw [if_pos hgt] at hf
        obtain ⟨hlo, hhi⟩ := round2_bounds hgt (hb p hp).2
        have ho2 : (⟨p.2, round2 (p.1 * 100)⟩ : DetObj) = o := Option.some.inj hf
        rw [← ho2]
        exact ⟨hlo, hhi⟩
      · rw [if_neg hgt] at hf
        cases hf
  · intro dets
    exact foldl_updUnique_nodup _ [] (by simp)
  · intro dets o ho p hp hname hgt
    have hx : (⟨p.2, round2 (p.1 * 100)⟩ : DetObj) ∈ dets.filterMap fun sl =>
        if (7 : ℚ)/10 < sl.1 then some ⟨sl.2, round2 (sl.1 * 100)⟩
        else none :=
      List.mem_filterMap.mpr ⟨p, hp, by simp [hgt]⟩
    have ho' : o ∈ (dets.filterMap fun sl =>
        if (7 : ℚ)/10 < sl.1 then some ⟨sl.2, round2 (sl.1 * 100)⟩
        else none).foldl updUnique [] := ho
    have := foldl_updUnique_max _ [] [] (by simp) (by simp) o ho'
      ⟨p.2, round2 (p.1 * 100)⟩ (by simpa using hx) (by simpa using hname)
    simpa using this

/-- C7 witness: the amended bound applied to a concrete detection list
with scores inside `[0, 1]`. -/
theorem C7_detect_objects_spec_witness :
    70 ≤ (DetObj.mk ("dog").data 80).confidence ∧
      (DetObj.mk ("dog").data 80).confidence ≤ 100 := by
  have h1 : ((7:ℚ)/10 < 4/5) := by norm_num
  have h2 : round2 ((4:ℚ)/5 * 100) = 80 := by
    rw [round2]
    norm_num [pyRoundHalfEven]
  have hmem : (DetObj.mk ("dog").data 80) ∈
      detect_objects true [((4 : ℚ)/5, ("dog").data)] := by
    simp [detect_objects, updUnique, h1, h2]
  exact C7_detect_objects_spec.2.1 [((4 : ℚ)/5, ("dog").data)]
    (by intro p hp; simp at hp; subst hp; norm_num) _ hmem

/-- C8 counterexample: a successful request to the text-to-speech
endpoint leaves its temporary mp3 file behind — the handler has no
`finally` block and never removes the file, so the temporary file
persists after the request completes. -/
theorem C8_counterexample :
    (text_to_speech ("hello").data true ("tmp123.mp3").data []).1 =
        RouteOutcome.ok ∧
      ("tmp123.mp3").data ∈
        (text_to_speech ("hello").data true ("tmp123.mp3").data []).2 := by
  constructor
  · rfl
  · simp [text_to_speech]

/-- C8 (amended): the upload handlers remove their saved temporary file
on every exit path — success, handled error, or fault — via a `finally`
block, so the file never persists; the text-to-speech endpoint, however,
creates its temporary file with `delete=False` and never removes it, so
for every non-empty request the file persists on both the success and
the error path. -/
theorem C8_tempfile_lifecycle :
    (∀ (hasImage : Bool) (filename filepath : PyStr)
        (saveOk processOk : Bool) (fs : List PyStr), filepath ∉ fs →
        filepath ∉
          (social_media_post hasImage filename filepath saveOk processOk fs).2) ∧
    (∀ (text : PyStr) (ttsOk : Bool) (tmpName : PyStr) (fs : List PyStr),
        text ≠ [] →
        tmpName ∈ (text_to_speech text ttsOk tmpName fs).2) := by
  constructor
  · intro hasImage filename filepath saveOk processOk fs hnotin
    simp only [social_media_post]
    split_ifs <;> simp [fsRemove, List.mem_filter, hnotin]
  · intro text ttsOk tmpName fs hne
    simp only [text_to_speech, hne, if_neg hne]
    cases ttsOk <;> simp

/-- C8 witness: the text-to-speech temporary file persists even on the
error path, and the social-media upload handler's file is gone. -/
theorem C8_tempfile_lifecycle_witness :
    ("speech.mp3").data ∈
      (text_to_speech ("hi").data false ("speech.mp3").data []).2 :=
  C8_tempfile_lifecycle.2 ("hi").data false ("speech.mp3").data [] (by decide)

/-- C9: `generate_alt_text_general` is total — its result always holds
exactly the four keys of `GenResult` — and when a step fails the
pre-populated defaults remain for the affected keys: a preprocessing or
quality failure returns the all-default dict, a caption-model failure
returns the dict with only `quality_issues` filled in, a clustering
failure leaves `dominant_colors` empty, and an unavailable detector
leaves `objects` empty. -/
theorem C9_generate_alt_text_general_defaults {Img : Type}
    (ba da : Bool) (pre : Except PyStr Img)
    (vq : Img → Except PyStr (List PyStr))
    (bd : Img → Except PyStr PyStr)
    (det : Img → List DetObj)
    (km : Img → Except PyStr (List PyStr)) :
    (∀ e, pre = .error e →
      generate_alt_text_general ba da pre vq bd det km = genDefault) ∧
    (∀ img e, pre = .ok img → vq img = .error e →
      generate_alt_text_general ba da pre vq bd det km = genDefault) ∧
    (∀ img issues e, pre = .ok img → vq img = .ok issues → ba = true →
      bd img = .error e →
      generate_alt_text_general ba da pre vq bd det km =
        { genDefault with quality_issues := issues }) ∧
    (∀ img e, pre = .ok img → km img = .error e →
      (generate_alt_text_general ba da pre vq bd det km).dominant_colors = []) ∧
    (∀ img, pre = .ok img → da = false →
      (generate_alt_text_general ba da pre vq bd det km).objects = []) := by
  refine ⟨?_, ?_, ?_, ?_, ?_⟩
  · intro e he
    subst he
    rfl
  · intro img e hp hv
    subst hp
    simp [generate_alt_text_general, hv]
  · intro img issues e hp hv hb hd
    subst hp
    subst hb
    simp [generate_alt_text_general, hv, hd]
  · intro img e hp hk
    subst hp
    simp only [generate_alt_text_general]
    cases hv : vq img with
    | error e' => rfl
    | ok issues =>
      cases hb : ba with
      | false =>
        simp only [Bool.false_eq_true, if_false, hk]
        cases da <;> rfl
      | true =>
        cases hd : bd img with
        | error e' => rfl
        | ok d =>
          simp only [hk]
          cases da <;> rfl
  · intro img hp hda
    subst hp
    subst hda
    simp only [generate_alt_text_general]
    cases hv : vq img with
    | error e' => rfl
    | ok issues =>
      cases hb : ba with
      | false =>
        simp only [Bool.false_eq_true, if_false]
        cases hk : km img <;> rfl
      | true =>
        cases hd : bd img with
        | error e' => rfl
        | ok d =>
          cases hk : km img <;> rfl

/-- C9 witness: the all-default result on a failing preprocessing step,
with `Img` instantiated to `Unit`. -/
theorem C9_generate_alt_text_general_defaults_witness :
    generate_alt_text_general true true
        (Except.error ("boom").data : Except PyStr Unit)
        (fun _ => .ok []) (fun _ => .ok [])
        (fun _ => []) (fun _ => .ok []) = genDefault :=
  (C9_generate_alt_text_general_defaults true true
    (Except.error ("boom").data : Except PyStr Unit)
    (fun _ => .ok []) (fun _ => .ok []) (fun _ => []) (fun _ => .ok [])).1
    ("boom").data rfl

/-! ## Lemmas: fixed points of `clean_text` -/

theorem clean_text_fixed (ws : List PyStr) (hg : GoodWords ws)
    (hd : dedupConsec ws = ws) (hc : ∀ w ∈ ws, pyCollapse w = w) :
    clean_text (joinSp ws) = joinSp ws := by
  by_cases hws : ws = []
  · subst hws
    rfl
  · have hjne : joinSp ws ≠ [] := joinSp_ne_nil ws hg hws
    rw [clean_text, if_neg hjne, pyWords_joinSp ws hg, hd,
      pyCollapse_joinSp ws hg, List.map_congr_left hc]
    simp

/-- C10 counterexample: `clean_text` with its default options is not
idempotent — on `"ab aab"` the character-collapsing pass turns the word
`aab` into `ab`, creating a new consecutive duplicate that only a second
application removes. -/
theorem C10_counterexample :
    clean_text (clean_text ("ab aab").data) ≠ clean_text ("ab aab").data := by
  decide

/-- C10 (amended): `clean_text` with its default options is not
idempotent, but its twofold composition is: for every input string,
applying `clean_text` three times equals applying it twice. -/
theorem C10_clean_text_squared_idempotent (s : PyStr) :
    clean_text (clean_text (clean_text s)) = clean_text (clean_text s) := by
  by_cases hs : s = []
  · subst hs
    rfl
  · have hg1 : GoodWords (dedupConsec (pyWords s)) :=
      fun w hw => pyWords_good s w (dedupConsec_subset _ w hw)
    have ht1 : clean_text s =
        joinSp ((dedupConsec (pyWords s)).map pyCollapse) := by
      rw [clean_text, if_neg hs, pyCollapse_joinSp _ hg1]
    have hg1' : GoodWords ((dedupConsec (pyWords s)).map pyCollapse) := by
      intro w hw
      obtain ⟨v, hv, rfl⟩ := List.mem_map.mp hw
      obtain ⟨hvne, hvw⟩ := hg1 v hv
      exact ⟨pyCollapse_ne_nil v hvne,
        fun c hcm => hvw c (pyCollapse_subset v c hcm)⟩
    have hfix1' : ∀ w ∈ (dedupConsec (pyWords s)).map pyCollapse,
        pyCollapse w = w := by
      intro w hw
      obtain ⟨v, hv, rfl⟩ := List.mem_map.mp hw
      exact pyCollapse_idem v
    by_cases hws1 : dedupConsec (pyWords s) = []
    · have h0 : clean_text s = [] := by
        rw [ht1, hws1]
        rfl
      rw [h0]
      rfl
    · have hne1' : (dedupConsec (pyWords s)).map pyCollapse ≠ [] := by
        simpa using hws1
      have ht2 : clean_text (joinSp ((dedupConsec (pyWords s)).map pyCollapse)) =
          joinSp (dedupConsec ((dedupConsec (pyWords s)).map pyCollapse)) := by
        have hjne : joinSp ((dedupConsec (pyWords s)).map pyCollapse) ≠ [] :=
          joinSp_ne_nil _ hg1' hne1'
        have hgd : GoodWords
            (dedupConsec ((dedupConsec (pyWords s)).map pyCollapse)) :=
          fun w hw => hg1' w (dedupConsec_subset _ w hw)
        have hfd : ∀ w ∈ dedupConsec ((dedupConsec (pyWords s)).map pyCollapse),
            pyCollapse w = w :=
          fun w hw => hfix1' w (dedupConsec_subset _ w hw)
        rw [clean_text, if_neg hjne, pyWords_joinSp _ hg1',
          pyCollapse_joinSp _ hgd, List.map_congr_left hfd]
        simp
      rw [ht1, ht2]
      exact clean_text_fixed _
        (fun w hw => hg1' w (dedupConsec_subset _ w hw))
        (dedupConsec_idem _)
        (fun w hw => hfix1' w (dedupConsec_subset _ w hw))
